import Mathlib

/-!
Verification of blight's tool model and argument utilities
(`src/blight/tool.py`, `src/blight/util.py`, `src/blight/action.py`,
`src/blight/actions/cc_for_cxx.py`).

Embedding conventions:

* Python strings are Lean `String`s; Python string operations
  (`startswith`, slicing `s[n:]`, `split("=", 1)`) are modelled as
  operations on the underlying character list, which is exactly their
  semantics on unicode code points.
* Python list indexing that can raise `IndexError` is modelled with
  `Option`; a function that can raise returns `none` in that case.
* The file system consulted by response-file expansion is an abstract
  record of path operations (`pathlib`) and token reads
  (`is_file` + `read_text` + `shlex.split`).
* Python `dict` insertion-with-overwrite followed by `.get` is modelled
  by an association list where the last binding wins.
-/

namespace Blight

/-- Python `s.startswith(pre)` (character based). -/
def sStartsWith (s pre : String) : Bool := pre.toList.isPrefixOf s.toList

/-- Python `s[n:]` (character based). -/
def sDrop (s : String) (n : Nat) : String := String.mk (s.toList.drop n)

theorem toList_inj {a b : String} (h : a.toList = b.toList) : a = b := by
  cases a; cases b
  simp only [String.toList] at h
  rw [h]

theorem isPrefixOf_eq_true {l₁ l₂ : List Char} : l₁.isPrefixOf l₂ = true ↔ l₁ <+: l₂ := by
  simp

theorem sStartsWith_iff {s pre : String} :
    sStartsWith s pre = true ↔ pre.toList <+: s.toList := by
  simp [sStartsWith]

/-- A string starting with `"-D"` cannot start with `"-U"`. -/
theorem not_dash_d_and_dash_u {a : String}
    (hd : sStartsWith a "-D" = true) (hu : sStartsWith a "-U" = true) : False := by
  rw [sStartsWith_iff] at hd hu
  obtain ⟨t₁, h₁⟩ := hd
  obtain ⟨t₂, h₂⟩ := hu
  rw [← h₁] at h₂
  simp at h₂

/-! ## `blight.enums` (the fragments the claims need) -/

inductive Lang where
  | C | Cxx | Unknown
  deriving DecidableEq

inductive Std where
  | C89 | C94 | C99 | C11 | C17 | C2x
  | Gnu89 | Gnu99 | Gnu11 | Gnu17 | Gnu2x
  | Cxx03 | Cxx11 | Cxx14 | Cxx17 | Cxx2a
  | Gnuxx03 | Gnuxx11 | Gnuxx14 | Gnuxx17 | Gnuxx2a
  | CUnknown | CxxUnknown | GnuUnknown | GnuxxUnknown | Unknown
  deriving DecidableEq

/-- `Std.is_cxxstd` from `blight/enums.py`. -/
def Std.isCxxStd : Std → Bool
  | .Cxx03 | .Cxx11 | .Cxx14 | .Cxx17 | .Cxx2a
  | .Gnuxx03 | .Gnuxx11 | .Gnuxx14 | .Gnuxx17 | .Gnuxx2a
  | .CxxUnknown | .GnuxxUnknown => true
  | _ => false

inductive OptLevel where
  | O0 | O1 | O2 | O3 | OFast | OSize | OSizeZ | ODebug | Unknown
  deriving DecidableEq

/-! ## `blight.util.rindex_prefix`

The source iterates `enumerate(reversed(items))` and returns
`len(items) - idx - 1` for the first (i.e. rightmost) element that starts
with the given string.  We model it by a left recursion that prefers the
rightmost match and carries the absolute index. -/

def rindexPrefGo (pre : String) : List String → Nat → Option Nat
  | [], _ => none
  | a :: rest, n =>
    match rindexPrefGo pre rest (n + 1) with
    | some i => some i
    | none => if sStartsWith a pre then some n else none

/-- `blight.util.rindex_prefix(items, pre)`: the rightmost index of an
element starting with `pre`, else `none`. -/
def rindexPref (items : List String) (pre : String) : Option Nat :=
  rindexPrefGo pre items 0

theorem rindexPrefGo_none {pre : String} :
    ∀ {l : List String} {n : Nat}, rindexPrefGo pre l n = none →
      ∀ a ∈ l, sStartsWith a pre = false := by
  intro l
  induction l with
  | nil => intro n _ a ha; cases ha
  | cons x rest ih =>
    intro n h a ha
    rw [rindexPrefGo] at h
    cases hr : rindexPrefGo pre rest (n + 1) with
    | some i => rw [hr] at h; exact absurd h (by simp)
    | none =>
      rw [hr] at h
      rcases List.mem_cons.mp ha with rfl | ha
      · by_contra hx
        simp only [Bool.not_eq_false] at hx
        rw [hx] at h
        simp at h
      · exact ih hr a ha

theorem rindexPrefGo_some {pre : String} :
    ∀ {l : List String} {n i : Nat}, rindexPrefGo pre l n = some i →
      n ≤ i ∧ ∃ a, l[i - n]? = some a ∧
        l.reverse.find? (fun x => sStartsWith x pre) = some a := by
  intro l
  induction l with
  | nil => intro n i h; simp [rindexPrefGo] at h
  | cons x rest ih =>
    intro n i h
    rw [rindexPrefGo] at h
    cases hr : rindexPrefGo pre rest (n + 1) with
    | some j =>
      rw [hr] at h
      cases h
      obtain ⟨hle, a, hget, hfind⟩ := ih hr
      refine ⟨by omega, a, ?_, ?_⟩
      · have : i - n = (i - (n + 1)) + 1 := by omega
        rw [this]
        simpa using hget
      · rw [List.reverse_cons, List.find?_append, hfind]
        simp
    | none =>
      rw [hr] at h
      by_cases hx : sStartsWith x pre = true
      · rw [if_pos hx] at h
        cases h
        refine ⟨Nat.le_refl _, x, by simp, ?_⟩
        have hnone : rest.reverse.find? (fun y => sStartsWith y pre) = none := by
          rw [List.find?_eq_none]
          intro y hy
          simp [rindexPrefGo_none hr y (List.mem_reverse.mp hy)]
        rw [List.reverse_cons, List.find?_append, hnone]
        simp [List.find?, hx]
      · rw [if_neg hx] at h
        exact absurd h (by simp)

/-- Bridge: when `rindex_prefix` finds nothing, neither does a rightmost
search for a matching element. -/
theorem rindexPref_none_find {items : List String} {pre : String}
    (h : rindexPref items pre = none) :
    items.reverse.find? (fun a => sStartsWith a pre) = none := by
  rw [rindexPref] at h
  rw [List.find?_eq_none]
  intro a ha
  simp [rindexPrefGo_none h a (List.mem_reverse.mp ha)]

/-- Bridge: indexing at a found `rindex_prefix` yields exactly the
rightmost matching element. -/
theorem rindexPref_some_find {items : List String} {pre : String} {i : Nat}
    (h : rindexPref items pre = some i) :
    ∃ a, items[i]? = some a ∧
      items.reverse.find? (fun x => sStartsWith x pre) = some a := by
  rw [rindexPref] at h
  obtain ⟨_, a, hget, hfind⟩ := rindexPrefGo_some h
  rw [Nat.sub_zero] at hget
  exact ⟨a, hget, hfind⟩

/-! ## `OptMixin.opt` (`blight/tool.py`)

The property iterates `reversed(canonicalized_args)`: an exact table hit
wins; otherwise an argument not starting with `-O` is skipped; otherwise
`-O<digits>` (first digit nonzero) maps to `O3` and anything else to
`Unknown`; with no `-O` argument at all the result is `O0`. -/

def optFlagMap : String → Option OptLevel
  | "-O0" => some .O0
  | "-O" => some .O1
  | "-O1" => some .O1
  | "-O2" => some .O2
  | "-O3" => some .O3
  | "-Ofast" => some .OFast
  | "-Os" => some .OSize
  | "-Oz" => some .OSizeZ
  | "-Og" => some .ODebug
  | _ => none

/-- `re.fullmatch(r"^-O[1-9]\d*$", arg)` as a character predicate. -/
def isONumeric (a : String) : Bool :=
  sStartsWith a "-O" &&
    match (sDrop a 2).toList with
    | [] => false
    | c :: cs => ('1' ≤ c && c ≤ '9') && cs.all (fun d => '0' ≤ d && d ≤ '9')

def optGo : List String → OptLevel
  | [] => .O0
  | a :: rest =>
    match optFlagMap a with
    | some o => o
    | none =>
      if sStartsWith a "-O" then
        if isONumeric a then .O3 else .Unknown
      else optGo rest

/-- `OptMixin.opt`, as a function of the canonicalized arguments. -/
def optOf (args : List String) : OptLevel := optGo args.reverse

/-- The classification a single `-O…` flag receives in the source. -/
def classifyOptFlag (a : String) : OptLevel :=
  match optFlagMap a with
  | some o => o
  | none => if isONumeric a then .O3 else .Unknown

/-- Spec-side reading of "the rightmost `-O…` flag wins": classify the
rightmost argument that starts with `-O`, defaulting to `O0`. -/
def rightmostOptFlag (args : List String) : OptLevel :=
  match args.reverse.find? (fun a => sStartsWith a "-O") with
  | some a => classifyOptFlag a
  | none => .O0

theorem optFlagMap_startsWith {a : String} {o : OptLevel}
    (h : optFlagMap a = some o) : sStartsWith a "-O" = true := by
  revert h
  unfold optFlagMap
  split <;> intro h
  all_goals first | decide | simp at h

theorem optGo_eq_find (l : List String) :
    optGo l = (match l.find? (fun a => sStartsWith a "-O") with
               | some a => classifyOptFlag a
               | none => .O0) := by
  induction l with
  | nil => rfl
  | cons x rest ih =>
    rw [optGo]
    cases hm : optFlagMap x with
    | some o =>
      have hx := optFlagMap_startsWith hm
      simp [List.find?, hx, classifyOptFlag, hm]
    | none =>
      by_cases hx : sStartsWith x "-O" = true
      · simp [List.find?, hx, classifyOptFlag, hm]
      · simp only [Bool.not_eq_true] at hx
        simp [List.find?, hx, ih]

/-- Claim C6 (counterexample): for `["-O2", "-Oxyz"]` the source returns
`Unknown` (the rightmost `-O…` argument, though unrecognized, is *not*
skipped in favor of the earlier recognized `-O2`), so `opt` is not `O2`. -/
theorem c6_counterexample :
    optOf ["-O2", "-Oxyz"] = OptLevel.Unknown ∧ optOf ["-O2", "-Oxyz"] ≠ OptLevel.O2 := by
  constructor <;> decide

/-- Claim C6 (amended): `opt` equals the classification of the rightmost
argument starting with `-O`: a table flag maps to its level, `-On` with
`n ≥ 1` maps to `O3`, any other `-O…` argument maps to `Unknown` (it does
not defer to earlier recognized flags), and with no `-O…` argument the
result is `O0`. -/
theorem c6_amended (args : List String) : optOf args = rightmostOptFlag args := by
  rw [optOf, rightmostOptFlag, optGo_eq_find]

/-! ## `blight.util.insert_items_at_idx`

The source's generator yields each parent item except the one at `idx`,
in whose place it yields all of `items`; when `idx` is past the end of
the parent sequence the items are never yielded. -/

def insertItemsAtIdx {α : Type} : List α → Nat → List α → List α
  | [], _, _ => []
  | _ :: rest, 0, items => items ++ rest
  | p :: rest, n + 1, items => p :: insertItemsAtIdx rest n items

theorem insertItemsAtIdx_length {α : Type} :
    ∀ (acc : List α) (idx : Nat) (items : List α),
      acc.length ≤ (insertItemsAtIdx acc idx items).length + 1
  | [], _, _ => by simp [insertItemsAtIdx]
  | _ :: rest, 0, items => by simp [insertItemsAtIdx]
  | _ :: rest, n + 1, items => by
    have := insertItemsAtIdx_length rest n items
    simp only [insertItemsAtIdx, List.length_cons]
    omega

/-- Python `enumerate`, starting at `n`. -/
def enumF {α : Type} (n : Nat) : List α → List (Nat × α)
  | [] => []
  | a :: rest => (n, a) :: enumF (n + 1) rest

theorem enumF_mem_snd {α : Type} :
    ∀ {l : List α} {n : Nat} {p : Nat × α}, p ∈ enumF n l → p.2 ∈ l := by
  intro l
  induction l with
  | nil => intro n p h; cases h
  | cons a rest ih =>
    intro n p h
    rw [enumF] at h
    rcases List.mem_cons.mp h with rfl | h
    · exact List.mem_cons_self _ _
    · exact List.mem_cons_of_mem _ (ih h)

/-! ## `ResponseFileMixin` (`blight/tool.py`)

The file system is abstracted: `readTokens` combines `is_file`,
`read_text` and `shlex.split` (it returns the token list of an existing
readable file, `none` otherwise); `isAbsolute`, `joinPath` and
`parentResolve` model the `pathlib` operations used by
`_expand_response_file`. -/

structure FileSystem where
  isAbsolute : String → Bool
  joinPath : String → String → String
  parentResolve : String → String
  readTokens : String → Option (List String)

def RESPONSE_FILE_RECURSION_LIMIT : Nat := 64

/-- `ResponseFileMixin._expand_response_file`.  The fuel is
`RESPONSE_FILE_RECURSION_LIMIT - level`; the source's
`level >= RESPONSE_FILE_RECURSION_LIMIT` early return is the fuel-0 case.
A missing file expands to the empty sequence.  Nested `@` tokens are
expanded and spliced back at their index in the *original* token list. -/
def expandResponseFile (fs : FileSystem) : Nat → String → String → List String
  | 0, _, _ => []
  | fuel + 1, rf0, workingDir =>
    let rf := if fs.isAbsolute rf0 then rf0 else fs.joinPath workingDir rf0
    match fs.readTokens rf with
    | none => []
    | some args =>
      ((enumF 0 args).filter (fun p => sStartsWith p.2 "@")).foldl
        (fun acc p =>
          insertItemsAtIdx acc p.1
            (expandResponseFile fs fuel (sDrop p.2 1) (fs.parentResolve rf)))
        args

/-- The `(idx, arg)` pairs of arguments that name response files. -/
def responseFileTokens (args : List String) : List (Nat × String) :=
  (enumF 0 args).filter (fun p => sStartsWith p.2 "@")

/-- `ResponseFileMixin.canonicalized_args` applied to an argument list:
each `@file` token (at its index in the *original* list) is expanded with
recursion level 0 and spliced in with `insert_items_at_idx`. -/
def canonicalizeArgs (fs : FileSystem) (cwd : String) (args : List String) : List String :=
  (responseFileTokens args).foldl
    (fun acc p =>
      insertItemsAtIdx acc p.1
        (expandResponseFile fs RESPONSE_FILE_RECURSION_LIMIT (sDrop p.2 1) cwd))
    args

/-- A file system with no readable files. -/
def fsEmpty : FileSystem :=
  ⟨fun _ => true, fun _ p => p, fun p => p, fun _ => none⟩

/-- A file system with exactly one file `b`, holding the single token `z`. -/
def fsB : FileSystem :=
  ⟨fun _ => true, fun _ p => p, fun p => p,
   fun p => if p = "b" then some ["z"] else none⟩

/-- Claim C3 (counterexample): a nonexistent response file expands to the
empty sequence, so `["@missing"]` canonicalizes to `[]` and the length of
the raw arguments exceeds the length of the canonical arguments. -/
theorem c3_counterexample :
    canonicalizeArgs fsEmpty "" ["@missing"] = [] ∧
      ¬ (["@missing"] : List String).length ≤
          (canonicalizeArgs fsEmpty "" ["@missing"]).length := by
  constructor <;> decide

theorem canonFold_length (fs : FileSystem) (cwd : String) :
    ∀ (l : List (Nat × String)) (acc : List String),
      acc.length ≤
        (l.foldl
          (fun acc p =>
            insertItemsAtIdx acc p.1
              (expandResponseFile fs RESPONSE_FILE_RECURSION_LIMIT (sDrop p.2 1) cwd))
          acc).length + l.length := by
  intro l
  induction l with
  | nil => intro acc; simp
  | cons p rest ih =>
    intro acc
    have h1 := insertItemsAtIdx_length acc p.1
      (expandResponseFile fs RESPONSE_FILE_RECURSION_LIMIT (sDrop p.2 1) cwd)
    have h2 := ih (insertItemsAtIdx acc p.1
      (expandResponseFile fs RESPONSE_FILE_RECURSION_LIMIT (sDrop p.2 1) cwd))
    simp only [List.foldl_cons, List.length_cons]
    omega

/-- Claim C3 (amended): expansion can shrink the argument sequence (a
nonexistent or empty response file contributes nothing), but each
response-file token accounts for at most one lost element:
`raw_args.len() ≤ canonical_args.len() + #response-file-tokens`. -/
theorem c3_amended (fs : FileSystem) (cwd : String) (args : List String) :
    args.length ≤ (canonicalizeArgs fs cwd args).length + (responseFileTokens args).length :=
  canonFold_length fs cwd (responseFileTokens args) args

/-- Claim C7 (counterexample): canonicalization is not idempotent.  With a
file system where `missing` does not exist and `b` holds the token `z`,
the list `["@missing", "@b"]` canonicalizes to `["@b"]` (the splice of the
second expansion lands at a stale index), and canonicalizing again yields
`["z"]`. -/
theorem c7_counterexample :
    canonicalizeArgs fsB "" ["@missing", "@b"] = ["@b"] ∧
      canonicalizeArgs fsB "" (canonicalizeArgs fsB "" ["@missing", "@b"]) = ["z"] ∧
      canonicalizeArgs fsB "" (canonicalizeArgs fsB "" ["@missing", "@b"]) ≠
        canonicalizeArgs fsB "" ["@missing", "@b"] := by
  refine ⟨?_, ?_, ?_⟩ <;> decide

theorem canonicalizeArgs_no_at {fs : FileSystem} {cwd : String} {args : List String}
    (h : ∀ a ∈ args, sStartsWith a "@" = false) :
    canonicalizeArgs fs cwd args = args := by
  have : responseFileTokens args = [] := by
    rw [responseFileTokens, List.filter_eq_nil_iff]
    intro p hp
    simp [h p.2 (enumF_mem_snd hp)]
  rw [canonicalizeArgs, this]
  rfl

/-- Claim C7 (amended): expanding a fully-expanded sequence is the
identity — if the canonical arguments contain no `@` token, a second
canonicalization returns them unchanged.  Full idempotence fails: when a
response-file expansion is spliced at a stale index, the canonical
arguments can retain an unexpanded `@` token (see the counterexample). -/
theorem c7_amended (fs : FileSystem) (cwd : String) (args : List String)
    (h : ∀ a ∈ canonicalizeArgs fs cwd args, sStartsWith a "@" = false) :
    canonicalizeArgs fs cwd (canonicalizeArgs fs cwd args) = canonicalizeArgs fs cwd args :=
  canonicalizeArgs_no_at h

/-- Witness for `c7_amended` at a concrete input. -/
theorem c7_amended_witness :
    canonicalizeArgs fsEmpty "" (canonicalizeArgs fsEmpty "" ["a"]) =
      canonicalizeArgs fsEmpty "" ["a"] :=
  c7_amended fsEmpty "" ["a"] (by decide)

/-! ## `Tool.run` and the action loops (`blight/tool.py`)

`Tool._before_run` iterates the configured actions in order and calls
each action's `_before_run`, catching `SkipRun` (which sets `_skip_run`)
and *continuing* the loop.  `Tool.run` then spawns the wrapped tool
unless skipped; a nonzero child exit raises `BuildError` immediately.
Only when no `BuildError` is raised do `_after_run` (all actions, in
order) and `_commit_journal` run.

An action is abstracted to whether its `_before_run` raises `SkipRun`
for this invocation (the kind filter is folded into that bit).  The trace
records which hooks were invoked. -/

inductive RunEvent where
  | beforeRun (i : Nat)
  | spawn
  | afterRun (i : Nat)
  | commitJournal
  deriving DecidableEq

inductive RunOutcome where
  | ok
  | buildError
  deriving DecidableEq

structure ActionSpec where
  raisesSkipRun : Bool

/-- `Tool._before_run` invokes every action's `_before_run` (no break). -/
def beforeRunEvents (acts : List ActionSpec) : List RunEvent :=
  (List.range acts.length).map RunEvent.beforeRun

/-- `Tool._skip_run` after `_before_run`: set if any action raised
`SkipRun`, and sticky. -/
def skipRunFlag (acts : List ActionSpec) : Bool :=
  acts.any (·.raisesSkipRun)

def afterRunEvents (acts : List ActionSpec) : List RunEvent :=
  (List.range acts.length).map RunEvent.afterRun

def commitEvents (journaling : Bool) : List RunEvent :=
  if journaling then [RunEvent.commitJournal] else []

/-- `Tool.run`: the trace of hook invocations and the outcome, given the
configured actions, the child's exit status and whether journaling is
enabled. -/
def runTool (acts : List ActionSpec) (childExit : Int) (journaling : Bool) :
    List RunEvent × RunOutcome :=
  let pre := beforeRunEvents acts
  if skipRunFlag acts then
    (pre ++ afterRunEvents acts ++ commitEvents journaling, .ok)
  else if childExit ≠ 0 then
    (pre ++ [.spawn], .buildError)
  else
    (pre ++ [.spawn] ++ afterRunEvents acts ++ commitEvents journaling, .ok)

/-- Claim C1 (counterexample): with journaling enabled, one ordinary
action and a child exiting 1, the run fails with a build error but the
journal is *not* committed and the action's `after_run` is *not*
invoked — `BuildError` is raised before `_after_run` and
`_commit_journal`. -/
theorem c1_counterexample :
    (runTool [⟨false⟩] 1 true).2 = RunOutcome.buildError ∧
      RunEvent.commitJournal ∉ (runTool [⟨false⟩] 1 true).1 ∧
      RunEvent.afterRun 0 ∉ (runTool [⟨false⟩] 1 true).1 := by
  refine ⟨?_, ?_, ?_⟩ <;> decide

/-- Claim C1 (amended): when the run is not skipped and the child exits
nonzero, the run fails with a build error and neither the journal commit
nor any action's `after_run` happens (they are skipped along with the
rest of `run`; the journal does *not* still commit). -/
theorem c1_amended (acts : List ActionSpec) (childExit : Int) (journaling : Bool)
    (hskip : skipRunFlag acts = false) (hexit : childExit ≠ 0) :
    (runTool acts childExit journaling).2 = RunOutcome.buildError ∧
      RunEvent.commitJournal ∉ (runTool acts childExit journaling).1 ∧
      ∀ i, RunEvent.afterRun i ∉ (runTool acts childExit journaling).1 := by
  rw [runTool]
  simp only [hskip, Bool.false_eq_true, if_false, if_pos hexit]
  refine ⟨by trivial, ?_, ?_⟩
  · intro h
    rcases List.mem_append.mp h with h | h
    · rcases List.mem_map.mp h with ⟨j, _, hj⟩
      cases hj
    · simp at h
  · intro i h
    rcases List.mem_append.mp h with h | h
    · rcases List.mem_map.mp h with ⟨j, _, hj⟩
      cases hj
    · simp at h

/-- Witness for `c1_amended`. -/
theorem c1_amended_witness :
    (runTool [⟨false⟩] 2 true).2 = RunOutcome.buildError ∧
      RunEvent.commitJournal ∉ (runTool [⟨false⟩] 2 true).1 ∧
      ∀ i, RunEvent.afterRun i ∉ (runTool [⟨false⟩] 2 true).1 :=
  c1_amended [⟨false⟩] 2 true (by decide) (by decide)

/-- Claim C2 (counterexample): with two actions of which the first raises
`SkipRun`, the second action's `before_run` is still invoked (the loop in
`Tool._before_run` catches `SkipRun` and continues; it does not stop). -/
theorem c2_counterexample :
    skipRunFlag [⟨true⟩, ⟨false⟩] = true ∧
      RunEvent.beforeRun 1 ∈ (runTool [⟨true⟩, ⟨false⟩] 0 false).1 := by
  constructor <;> decide

/-- Claim C2 (amended): when some action's `before_run` raises `SkipRun`
the skip flag is recorded (it is sticky: it is set iff *some* action
raises), but the loop continues — every configured action's `before_run`
is invoked regardless. -/
theorem c2_amended (acts : List ActionSpec) (childExit : Int) (journaling : Bool)
    (i : Nat) (hi : i < acts.length) :
    skipRunFlag acts = acts.any (·.raisesSkipRun) ∧
      RunEvent.beforeRun i ∈ (runTool acts childExit journaling).1 := by
  refine ⟨rfl, ?_⟩
  have hpre : RunEvent.beforeRun i ∈ beforeRunEvents acts :=
    List.mem_map.mpr ⟨i, List.mem_range.mpr hi, rfl⟩
  rw [runTool]
  split
  · exact List.mem_append.mpr (Or.inl (List.mem_append.mpr (Or.inl hpre)))
  · split
    · exact List.mem_append.mpr (Or.inl hpre)
    · exact List.mem_append.mpr
        (Or.inl (List.mem_append.mpr (Or.inl (List.mem_append.mpr (Or.inl hpre)))))

/-- Witness for `c2_amended`. -/
theorem c2_amended_witness :
    skipRunFlag [⟨true⟩, ⟨false⟩] = [⟨true⟩, (⟨false⟩ : ActionSpec)].any (·.raisesSkipRun) ∧
      RunEvent.beforeRun 1 ∈ (runTool [⟨true⟩, ⟨false⟩] 0 false).1 :=
  c2_amended [⟨true⟩, ⟨false⟩] 0 false 1 (by decide)

/-! ## `blight.util.unswizzled_path` and `Tool._fixup_env` -/

def SWIZZLE_SENTINEL : String := "@blight-swizzle@"

/-- `pathlib.Path(p).name` on POSIX: the last path component, after
dropping empty and `.` components. -/
def pathName (p : String) : String :=
  match ((p.splitOn "/").filter (fun c => !(c == "") && !(c == "."))).reverse with
  | [] => ""
  | c :: _ => c

/-- `unswizzled_path` on the already-split `PATH` elements: keep exactly
the elements whose basename does not end with the swizzle sentinel. -/
def unswizzledPathList (paths : List String) : List String :=
  paths.filter (fun p => !(pathName p).endsWith SWIZZLE_SENTINEL)

/-- `blight.util.unswizzled_path`: split `PATH` on `os.pathsep` (`":"` on
POSIX), drop swizzled entries, rejoin. -/
def unswizzledPath (path : String) : String :=
  String.intercalate ":" (unswizzledPathList (path.splitOn ":"))

/-- `Tool._fixup_env`: the `PATH` value placed into the child environment
snapshot is the unswizzled version of the process `PATH`. -/
def fixupEnvPATH (origPATH : String) : String := unswizzledPath origPATH

/-- Claim C9: no element of the sanitized `PATH` has a basename ending in
the swizzle sentinel, the surviving elements are a subsequence (order
preserved) of the original elements, and the env snapshot's `PATH` is
exactly the rejoined survivors. -/
theorem c9_path_sanitization (path : String) :
    (∀ p ∈ unswizzledPathList (path.splitOn ":"),
        (pathName p).endsWith SWIZZLE_SENTINEL = false) ∧
      (unswizzledPathList (path.splitOn ":")).Sublist (path.splitOn ":") ∧
      fixupEnvPATH path = String.intercalate ":" (unswizzledPathList (path.splitOn ":")) := by
  refine ⟨?_, List.filter_sublist _, rfl⟩
  intro p hp
  have h := List.of_mem_filter hp
  simpa using h

/-! ## `blight.util.collect_option_values` -/

inductive OptionValueStyle where
  | Space | Mash | MashOrSpace | Equal | EqualOrSpace
  deriving DecidableEq

def OptionValueStyle.permitsEqual : OptionValueStyle → Bool
  | .Equal | .EqualOrSpace => true
  | _ => false

def OptionValueStyle.permitsMash : OptionValueStyle → Bool
  | .Mash | .MashOrSpace => true
  | _ => false

def OptionValueStyle.permitsSpace : OptionValueStyle → Bool
  | .Space | .MashOrSpace | .EqualOrSpace => true
  | _ => false

/-- Splits a character list at the first `'='`, if any. -/
def breakAtEq : List Char → Option (List Char × List Char)
  | [] => none
  | c :: cs =>
    if c = '=' then some ([], cs)
    else (breakAtEq cs).map (fun p => (c :: p.1, p.2))

/-- Python `s.split("=", 1)[1]`: `none` when `s` contains no `'='` (the
source raises `IndexError` there). -/
def eqTail (s : String) : Option String :=
  (breakAtEq s.toList).map (fun p => String.mk p.2)

/-- The loop body of `collect_option_values` over the enumerated
arguments.  An exact occurrence with a space-permitting style reads
`args[idx + 1]` (out of range ⇒ failure); a non-exact occurrence uses the
mash suffix when permitted, else the text after `"="` when the style
permits equal (no `"="` ⇒ failure). -/
def collectOptionValuesGo (args : List String) (opt_ : String) (style : OptionValueStyle) :
    List (Nat × String) → Option (List (Nat × String))
  | [] => some []
  | p :: rest =>
    if sStartsWith p.2 opt_ then
      if p.2 = opt_ then
        if style.permitsSpace then
          match args[p.1 + 1]? with
          | none => none
          | some v => (collectOptionValuesGo args opt_ style rest).map ((p.1, v) :: ·)
        else collectOptionValuesGo args opt_ style rest
      else
        if style.permitsMash then
          (collectOptionValuesGo args opt_ style rest).map
            ((p.1, sDrop p.2 opt_.toList.length) :: ·)
        else if style.permitsEqual then
          match eqTail p.2 with
          | none => none
          | some v => (collectOptionValuesGo args opt_ style rest).map ((p.1, v) :: ·)
        else collectOptionValuesGo args opt_ style rest
    else collectOptionValuesGo args opt_ style rest

/-- `blight.util.collect_option_values` (default style is `MashOrSpace`). -/
def collectOptionValues (args : List String) (opt_ : String) (style : OptionValueStyle) :
    Option (List (Nat × String)) :=
  collectOptionValuesGo args opt_ style (enumF 0 args)

/-- The claim's precondition: every exact occurrence of the option is
followed by at least one more argument. -/
def exactFollowed (args : List String) (opt_ : String) : Bool :=
  (enumF 0 args).all (fun p => !(p.2 == opt_) || decide (p.1 + 1 < args.length))

/-- The extra precondition the equal-only styles need: when the style
permits equal but not mash, every non-exact occurrence must contain
`"="`. -/
def mashSafe (args : List String) (opt_ : String) (style : OptionValueStyle) : Bool :=
  style.permitsMash || !style.permitsEqual ||
    args.all (fun a => !(sStartsWith a opt_) || (a == opt_) || (eqTail a).isSome)

/-- Claim C10 (counterexample): the claimed precondition is not enough for
totality.  For `args = ["-Dfoo"]`, option `"-D"`, style `Equal`, every
exact occurrence of the option is followed by another argument (there is
none), yet the function fails: `"-Dfoo".split("=", 1)[1]` raises
`IndexError`. -/
theorem c10_counterexample :
    exactFollowed ["-Dfoo"] "-D" = true ∧
      collectOptionValues ["-Dfoo"] "-D" OptionValueStyle.Equal = none := by
  constructor <;> decide

theorem enumF_mem_get {α : Type} :
    ∀ {l : List α} {n : Nat} {p : Nat × α}, p ∈ enumF n l →
      n ≤ p.1 ∧ l[p.1 - n]? = some p.2 := by
  intro l
  induction l with
  | nil => intro n p h; cases h
  | cons a rest ih =>
    intro n p h
    rw [enumF] at h
    rcases List.mem_cons.mp h with rfl | h
    · exact ⟨Nat.le_refl _, by simp⟩
    · obtain ⟨hle, hget⟩ := ih h
      refine ⟨by omega, ?_⟩
      have : p.1 - n = (p.1 - (n + 1)) + 1 := by omega
      rw [this]
      simpa using hget

theorem collectGo_isSome (args : List String) (opt_ : String) (style : OptionValueStyle)
    (hsafe : style.permitsMash = true ∨ style.permitsEqual = false ∨
      ∀ a ∈ args, sStartsWith a opt_ = true → a ≠ opt_ → (eqTail a).isSome = true) :
    ∀ l : List (Nat × String), (∀ p ∈ l, p.2 ∈ args) →
      (∀ p ∈ l, p.2 = opt_ → p.1 + 1 < args.length) →
      (collectOptionValuesGo args opt_ style l).isSome = true := by
  intro l
  induction l with
  | nil => intro _ _; rw [collectOptionValuesGo]; rfl
  | cons p rest ih =>
    intro hmem hfoll
    have ihr := ih (fun q hq => hmem q (List.mem_cons_of_mem _ hq))
      (fun q hq => hfoll q (List.mem_cons_of_mem _ hq))
    rw [collectOptionValuesGo]
    by_cases hpre : sStartsWith p.2 opt_ = true
    · rw [if_pos hpre]
      by_cases hex : p.2 = opt_
      · rw [if_pos hex]
        by_cases hsp : style.permitsSpace = true
        · rw [if_pos hsp]
          have hlt := hfoll p (List.mem_cons_self _ _) hex
          rw [List.getElem?_eq_getElem hlt]
          simpa using ihr
        · rw [if_neg hsp]; exact ihr
      · rw [if_neg hex]
        by_cases hmash : style.permitsMash = true
        · rw [if_pos hmash]
          simpa using ihr
        · rw [if_neg hmash]
          by_cases heq : style.permitsEqual = true
          · rw [if_pos heq]
            have hsome : (eqTail p.2).isSome = true := by
              rcases hsafe with h | h | h
              · exact absurd h (by simp [hmash])
              · exact absurd heq (by simp [h])
              · exact h p.2 (hmem p (List.mem_cons_self _ _)) hpre hex
            cases ht : eqTail p.2 with
            | none => rw [ht] at hsome; cases hsome
            | some v => simpa using ihr
          · rw [if_neg heq]; exact ihr
    · rw [if_neg hpre]; exact ihr

/-- Claim C10 (amended): `collect_option_values` is partial — with
`args = ["-o"]`, option `"-o"` and the (default) space-permitting style it
reads past the end of the list and fails.  It totally returns its
`(index, value)` pairs under the precondition that every exact occurrence
of the option is followed by at least one more argument *and*, when the
style permits equal but not mash, every non-exact occurrence contains
`"="`. -/
theorem c10_amended (args : List String) (opt_ : String) (style : OptionValueStyle)
    (hexact : exactFollowed args opt_ = true)
    (hsafe : mashSafe args opt_ style = true) :
    collectOptionValues ["-o"] "-o" OptionValueStyle.MashOrSpace = none ∧
      (collectOptionValues args opt_ style).isSome = true := by
  refine ⟨by decide, ?_⟩
  rw [collectOptionValues]
  apply collectGo_isSome
  · rw [mashSafe] at hsafe
    rcases Bool.or_eq_true_iff.mp hsafe with h | h
    · rcases Bool.or_eq_true_iff.mp h with h | h
      · exact Or.inl h
      · refine Or.inr (Or.inl ?_)
        simpa using h
    · refine Or.inr (Or.inr ?_)
      intro a ha hpre hex
      have hthis := List.all_eq_true.mp h a ha
      rcases Bool.or_eq_true_iff.mp hthis with h1 | h1
      · rcases Bool.or_eq_true_iff.mp h1 with h2 | h2
        · rw [Bool.not_eq_true'] at h2
          rw [hpre] at h2
          cases h2
        · exact absurd (by simpa using h2) hex
      · exact h1
  · intro p hp
    have hg := (enumF_mem_get hp).2
    exact List.getElem?_mem hg
  · intro p hp hex
    have hall := List.all_eq_true.mp hexact p hp
    simp only [Bool.or_eq_true, Bool.not_eq_true', decide_eq_true_eq] at hall
    rcases hall with h' | h'
    · exact absurd (by simpa using h') (by simp [hex])
    · exact h'

/-- Witness for `c10_amended`. -/
theorem c10_amended_witness :
    collectOptionValues ["-o"] "-o" OptionValueStyle.MashOrSpace = none ∧
      (collectOptionValues ["-o", "out"] "-o" OptionValueStyle.MashOrSpace).isSome = true :=
  c10_amended ["-o", "out"] "-o" OptionValueStyle.MashOrSpace (by decide) (by decide)

/-! ## `DefinesMixin` (`blight/tool.py`) -/

/-- Python `define.split("=", 1)` with the implicit default value `"1"`:
the macro name is the text before the first `'='`; the value is the text
after it, or `"1"` when there is no `'='`. -/
def splitDefine (s : String) : String × String :=
  match breakAtEq s.toList with
  | none => (s, "1")
  | some p => (String.mk p.1, String.mk p.2)

/-- The name referenced by a `-U` argument at index `i`: `args[i + 1]` for
the exact split form (may be out of range ⇒ `IndexError`), the mash
suffix `arg[2:]` otherwise. -/
def undefineNameAt (args : List String) (i : Nat) (a : String) : Option String :=
  if a = "-U" then args[i + 1]? else some (sDrop a 2)

/-- The define text of a `-D` argument at index `i`, analogously. -/
def defineTextAt (args : List String) (i : Nat) (a : String) : Option String :=
  if a = "-D" then args[i + 1]? else some (sDrop a 2)

/-- `DefinesMixin.indexed_undefines` over the enumerated arguments.  The
Python `dict` is modelled as the association list of its assignments in
loop order; `dget` below gives the last binding for a key, which is what
overwrite-plus-`.get` computes. -/
def indexedUndefinesGo (args : List String) :
    List (Nat × String) → Option (List (String × Nat))
  | [] => some []
  | p :: rest =>
    if sStartsWith p.2 "-U" then
      match undefineNameAt args p.1 p.2 with
      | none => none
      | some name => (indexedUndefinesGo args rest).map ((name, p.1) :: ·)
    else indexedUndefinesGo args rest

def indexedUndefines (args : List String) : Option (List (String × Nat)) :=
  indexedUndefinesGo args (enumF 0 args)

/-- Python `dict.get` for a dict built by sequential assignment: the last
binding for the key wins. -/
def dget : List (String × Nat) → String → Option Nat
  | [], _ => none
  | q :: rest, k =>
    match dget rest k with
    | some v => some v
    | none => if q.1 = k then some q.2 else none

/-- `DefinesMixin.defines` over the enumerated arguments, given the
successfully computed undefine dict.  A define occurrence is dropped when
`indexed_undefines.get(name, -1) > idx`. -/
def definesGo (args : List String) (iu : List (String × Nat)) :
    List (Nat × String) → Option (List (String × String))
  | [] => some []
  | p :: rest =>
    if sStartsWith p.2 "-D" then
      match defineTextAt args p.1 p.2 with
      | none => none
      | some d =>
        if (match dget iu (splitDefine d).1 with
            | some u => decide (p.1 < u)
            | none => false) = true then
          definesGo args iu rest
        else (definesGo args iu rest).map (splitDefine d :: ·)
    else definesGo args iu rest

/-- `DefinesMixin.defines`.  When `indexed_undefines` raises (a trailing
bare `-U`), the loop in `defines` still raises only if it reaches a `-D`
occurrence at all: with no `-D`-prefixed argument `defines` returns `[]`
without ever touching `indexed_undefines`. -/
def defines (args : List String) : Option (List (String × String)) :=
  match indexedUndefines args with
  | some iu => definesGo args iu (enumF 0 args)
  | none =>
    if (enumF 0 args).any (fun p => sStartsWith p.2 "-D") then none
    else some []

/-- Claim-side predicate: "an argument defining `M`" at index `i` — one
of the forms `-DM`, `-DM=value` (mash; the name is the text before the
first `'='` of the suffix) or `-D M[=value]` (split form). -/
def definesArgAt (args : List String) (m : String) (i : Nat) : Prop :=
  (∃ a, args[i]? = some a ∧ sStartsWith a "-D" = true ∧ a ≠ "-D" ∧
    (splitDefine (sDrop a 2)).1 = m) ∨
  (args[i]? = some "-D" ∧ ∃ t, args[i + 1]? = some t ∧ (splitDefine t).1 = m)

/-- Claim-side predicate: "an argument undefining `M`" at index `i` — one
of the forms `-UM` or `-U M`. -/
def undefinesArgAt (args : List String) (m : String) (i : Nat) : Prop :=
  (∃ a, args[i]? = some a ∧ sStartsWith a "-U" = true ∧ a ≠ "-U" ∧ sDrop a 2 = m) ∨
  (args[i]? = some "-U" ∧ args[i + 1]? = some m)

theorem enumF_get_mem {α : Type} :
    ∀ {l : List α} {i : Nat} {a : α} (n : Nat), l[i]? = some a → (n + i, a) ∈ enumF n l := by
  intro l
  induction l with
  | nil => intro i a n h; simp at h
  | cons b rest ih =>
    intro i a n h
    cases i with
    | zero =>
      simp only [List.getElem?_cons_zero, Option.some.injEq] at h
      subst h
      rw [enumF]
      exact List.mem_cons_self _ _
    | succ i =>
      rw [enumF]
      refine List.mem_cons_of_mem _ ?_
      have heq : n + (i + 1) = (n + 1) + i := by omega
      rw [heq]
      exact ih (n + 1) (by simpa using h)

/-- `(i, a) ∈ enumF 0 args ↔ args[i]? = some a`. -/
theorem enumF_zero_mem_iff {α : Type} {args : List α} {i : Nat} {a : α} :
    (i, a) ∈ enumF 0 args ↔ args[i]? = some a := by
  constructor
  · intro h
    simpa using (enumF_mem_get h).2
  · intro h
    simpa using enumF_get_mem 0 h

theorem enumF_pairwise {α : Type} :
    ∀ (l : List α) (n : Nat),
      List.Pairwise (fun p q : Nat × α => p.1 < q.1) (enumF n l) := by
  intro l
  induction l with
  | nil => intro n; rw [enumF]; exact List.Pairwise.nil
  | cons a rest ih =>
    intro n
    rw [enumF]
    refine List.Pairwise.cons ?_ (ih (n + 1))
    intro q hq
    have := (enumF_mem_get hq).1
    simpa using by omega

theorem iuGo_mem {args : List String} :
    ∀ {l : List (Nat × String)} {iu : List (String × Nat)},
      indexedUndefinesGo args l = some iu →
      ∀ {m : String} {i : Nat},
        ((m, i) ∈ iu ↔
          ∃ a, (i, a) ∈ l ∧ sStartsWith a "-U" = true ∧
            undefineNameAt args i a = some m) := by
  intro l
  induction l with
  | nil =>
    intro iu h m i
    rw [indexedUndefinesGo] at h
    cases h
    simp
  | cons p rest ih =>
    intro iu h m i
    rw [indexedUndefinesGo] at h
    by_cases hu : sStartsWith p.2 "-U" = true
    · rw [if_pos hu] at h
      cases hn : undefineNameAt args p.1 p.2 with
      | none => rw [hn] at h; exact absurd h (by simp)
      | some name =>
        rw [hn] at h
        cases hr : indexedUndefinesGo args rest with
        | none => rw [hr] at h; exact absurd h (by simp)
        | some iu' =>
          rw [hr] at h
          simp only [Option.map_some', Option.some.injEq] at h
          subst h
          constructor
          · intro hm
            rcases List.mem_cons.mp hm with heq | hm'
            · have h1 : m = name := congrArg Prod.fst heq
              have h2 : i = p.1 := congrArg Prod.snd heq
              subst h1; subst h2
              exact ⟨p.2, List.mem_cons_self _ _, hu, hn⟩
            · obtain ⟨a, ha, hsw, hun⟩ := (ih hr).mp hm'
              exact ⟨a, List.mem_cons_of_mem _ ha, hsw, hun⟩
          · rintro ⟨a, ha, hsw, hun⟩
            rcases List.mem_cons.mp ha with heq | ha'
            · have h1 : i = p.1 := congrArg Prod.fst heq
              have h2 : a = p.2 := congrArg Prod.snd heq
              subst h1; subst h2
              rw [hn] at hun
              injection hun with hmn
              subst hmn
              exact List.mem_cons_self _ _
            · exact List.mem_cons_of_mem _ ((ih hr).mpr ⟨a, ha', hsw, hun⟩)
    · rw [if_neg hu] at h
      rw [ih h]
      constructor
      · rintro ⟨a, ha, hsw, hun⟩
        exact ⟨a, List.mem_cons_of_mem _ ha, hsw, hun⟩
      · rintro ⟨a, ha, hsw, hun⟩
        rcases List.mem_cons.mp ha with heq | ha'
        · have h2 : a = p.2 := congrArg Prod.snd heq
          subst h2
          exact absurd hsw (by simpa using hu)
        · exact ⟨a, ha', hsw, hun⟩

theorem iuGo_pairwise {args : List String} :
    ∀ {l : List (Nat × String)} {iu : List (String × Nat)},
      List.Pairwise (fun p q : Nat × String => p.1 < q.1) l →
      indexedUndefinesGo args l = some iu →
      List.Pairwise (fun p q : String × Nat => p.2 < q.2) iu := by
  intro l
  induction l with
  | nil =>
    intro iu _ h
    rw [indexedUndefinesGo] at h
    cases h
    exact List.Pairwise.nil
  | cons p rest ih =>
    intro iu hpw h
    have hp := List.pairwise_cons.mp hpw
    rw [indexedUndefinesGo] at h
    by_cases hu : sStartsWith p.2 "-U" = true
    · rw [if_pos hu] at h
      cases hn : undefineNameAt args p.1 p.2 with
      | none => rw [hn] at h; exact absurd h (by simp)
      | some name =>
        rw [hn] at h
        cases hr : indexedUndefinesGo args rest with
        | none => rw [hr] at h; exact absurd h (by simp)
        | some iu' =>
          rw [hr] at h
          simp only [Option.map_some', Option.some.injEq] at h
          subst h
          refine List.Pairwise.cons ?_ (ih hp.2 hr)
          intro q hq
          obtain ⟨a, ha, _, _⟩ := (iuGo_mem hr).mp (show (q.1, q.2) ∈ iu' from hq)
          exact hp.1 _ ha
    · rw [if_neg hu] at h
      exact ih hp.2 h

theorem dget_some_mem :
    ∀ {d : List (String × Nat)} {k : String} {v : Nat}, dget d k = some v → (k, v) ∈ d := by
  intro d
  induction d with
  | nil => intro k v h; rw [dget] at h; cases h
  | cons q rest ih =>
    intro k v h
    rw [dget] at h
    cases hr : dget rest k with
    | some w =>
      rw [hr] at h
      cases h
      exact List.mem_cons_of_mem _ (ih hr)
    | none =>
      rw [hr] at h
      by_cases hk : q.1 = k
      · rw [if_pos hk] at h
        cases h
        subst hk
        exact List.mem_cons_self _ _
      · rw [if_neg hk] at h
        cases h

theorem dget_none_iff {d : List (String × Nat)} {k : String} :
    dget d k = none ↔ ∀ j, (k, j) ∉ d := by
  induction d with
  | nil => simp [dget]
  | cons q rest ih =>
    rw [dget]
    constructor
    · intro h j hj
      cases hr : dget rest k with
      | some v => rw [hr] at h; cases h
      | none =>
        rw [hr] at h
        by_cases hk : q.1 = k
        · rw [if_pos hk] at h; cases h
        · rcases List.mem_cons.mp hj with heq | hj'
          · exact hk (congrArg Prod.fst heq).symm
          · exact ih.mp hr j hj'
    · intro h
      cases hr : dget rest k with
      | some v => exact absurd (List.mem_cons_of_mem q (dget_some_mem hr)) (h v)
      | none =>
        by_cases hk : q.1 = k
        · exfalso
          apply h q.2
          subst hk
          exact List.mem_cons_self _ _
        · simp only [if_neg hk]

theorem dget_some_iff :
    ∀ {d : List (String × Nat)},
      List.Pairwise (fun p q : String × Nat => p.2 < q.2) d →
      ∀ {k : String} {i : Nat},
        (dget d k = some i ↔ ((k, i) ∈ d ∧ ∀ j, (k, j) ∈ d → j ≤ i)) := by
  intro d
  induction d with
  | nil => intro _ k i; rw [dget]; simp
  | cons q rest ih =>
    intro hpw k i
    have hq := List.pairwise_cons.mp hpw
    rw [dget]
    cases hr : dget rest k with
    | some v =>
      have hv := (ih hq.2).mp hr
      constructor
      · intro h
        cases h
        refine ⟨List.mem_cons_of_mem _ hv.1, ?_⟩
        intro j hj
        rcases List.mem_cons.mp hj with heq | hj'
        · have hj2 : j = q.2 := congrArg Prod.snd heq
          have hlt := hq.1 _ hv.1
          omega
        · exact hv.2 j hj'
      · rintro ⟨hmem, hmax⟩
        have h1 : v ≤ i := hmax v (List.mem_cons_of_mem _ hv.1)
        have h2 : i ≤ v := by
          rcases List.mem_cons.mp hmem with heq | hmem'
          · have hi2 : i = q.2 := congrArg Prod.snd heq
            have hlt := hq.1 _ hv.1
            omega
          · exact hv.2 i hmem'
        rw [show v = i by omega]
    | none =>
      have hnone := dget_none_iff.mp hr
      by_cases hk : q.1 = k
      · rw [if_pos hk]
        constructor
        · intro h
          cases h
          refine ⟨?_, ?_⟩
          · subst hk
            exact List.mem_cons_self _ _
          · intro j hj
            rcases List.mem_cons.mp hj with heq | hj'
            · have hj2 : j = q.2 := congrArg Prod.snd heq
              omega
            · exact absurd hj' (hnone j)
        · rintro ⟨hmem, _⟩
          rcases List.mem_cons.mp hmem with heq | hmem'
          · have hi2 : i = q.2 := congrArg Prod.snd heq
            rw [hi2]
          · exact absurd hmem' (hnone i)
      · rw [if_neg hk]
        constructor
        · intro h; cases h
        · rintro ⟨hmem, _⟩
          rcases List.mem_cons.mp hmem with heq | hmem'
          · exact absurd (congrArg Prod.fst heq).symm hk
          · exact absurd hmem' (hnone i)

theorem skipCond_true {iu : List (String × Nat)} {key : String} {idx : Nat}
    (h : (match dget iu key with
          | some u => decide (idx < u)
          | none => false) = true) :
    ∃ u, dget iu key = some u ∧ idx < u := by
  cases hg : dget iu key with
  | none => rw [hg] at h; cases h
  | some u =>
    rw [hg] at h
    exact ⟨u, rfl, by simpa using h⟩

theorem skipCond_false {iu : List (String × Nat)} {key : String} {idx : Nat}
    (h : ¬ (match dget iu key with
            | some u => decide (idx < u)
            | none => false) = true) :
    ¬∃ u, dget iu key = some u ∧ idx < u := by
  rintro ⟨u, hu, hlt⟩
  rw [hu] at h
  simp [hlt] at h

theorem dGo_mem {args : List String} {iu : List (String × Nat)} :
    ∀ {l : List (Nat × String)} {ds : List (String × String)},
      definesGo args iu l = some ds →
      ∀ {m v : String},
        ((m, v) ∈ ds ↔
          ∃ i a, (i, a) ∈ l ∧ sStartsWith a "-D" = true ∧
            ∃ d, defineTextAt args i a = some d ∧ splitDefine d = (m, v) ∧
              ¬∃ u, dget iu m = some u ∧ i < u) := by
  intro l
  induction l with
  | nil =>
    intro ds h m v
    rw [definesGo] at h
    cases h
    simp
  | cons p rest ih =>
    intro ds h m v
    rw [definesGo] at h
    by_cases hd : sStartsWith p.2 "-D" = true
    · rw [if_pos hd] at h
      cases hn : defineTextAt args p.1 p.2 with
      | none => rw [hn] at h; simp at h
      | some d =>
        rw [hn] at h
        by_cases hskip : (match dget iu (splitDefine d).1 with
            | some u => decide (p.1 < u)
            | none => false) = true
        · simp only [hskip, if_true] at h
          rw [ih h]
          constructor
          · rintro ⟨i, a, ha, hsw, d', hd', hsd, hnu⟩
            exact ⟨i, a, List.mem_cons_of_mem _ ha, hsw, d', hd', hsd, hnu⟩
          · rintro ⟨i, a, ha, hsw, d', hd', hsd, hnu⟩
            rcases List.mem_cons.mp ha with heq | ha'
            · exfalso
              have h1 : i = p.1 := congrArg Prod.fst heq
              have h2 : a = p.2 := congrArg Prod.snd heq
              subst h1; subst h2
              rw [hn] at hd'
              injection hd' with hdd
              subst hdd
              apply hnu
              have hkey : (splitDefine d).1 = m := congrArg Prod.fst hsd
              rw [← hkey]
              exact skipCond_true hskip
            · exact ⟨i, a, ha', hsw, d', hd', hsd, hnu⟩
        · have hskip' := hskip
          rw [Bool.not_eq_true] at hskip'
          simp only [hskip', Bool.false_eq_true, if_false] at h
          cases hr : definesGo args iu rest with
          | none => rw [hr] at h; simp at h
          | some ds' =>
            rw [hr] at h
            simp only [Option.map_some', Option.some.injEq] at h
            subst h
            constructor
            · intro hm
              rcases List.mem_cons.mp hm with heq | hm'
              · refine ⟨p.1, p.2, List.mem_cons_self _ _, hd, d, hn, heq.symm, ?_⟩
                have hkey : (splitDefine d).1 = m := (congrArg Prod.fst heq).symm
                rw [← hkey]
                exact skipCond_false hskip
              · obtain ⟨i, a, ha, hsw, d', hd', hsd, hnu⟩ := (ih hr).mp hm'
                exact ⟨i, a, List.mem_cons_of_mem _ ha, hsw, d', hd', hsd, hnu⟩
            · rintro ⟨i, a, ha, hsw, d', hd', hsd, hnu⟩
              rcases List.mem_cons.mp ha with heq | ha'
              · have h1 : i = p.1 := congrArg Prod.fst heq
                have h2 : a = p.2 := congrArg Prod.snd heq
                subst h1; subst h2
                rw [hn] at hd'
                injection hd' with hdd
                subst hdd
                exact List.mem_cons.mpr (Or.inl hsd.symm)
              · exact List.mem_cons_of_mem _ ((ih hr).mpr ⟨i, a, ha', hsw, d', hd', hsd, hnu⟩)
    · rw [if_neg hd] at h
      rw [ih h]
      constructor
      · rintro ⟨i, a, ha, hsw, rest'⟩
        exact ⟨i, a, List.mem_cons_of_mem _ ha, hsw, rest'⟩
      · rintro ⟨i, a, ha, hsw, rest'⟩
        rcases List.mem_cons.mp ha with heq | ha'
        · have h2 : a = p.2 := congrArg Prod.snd heq
          subst h2
          exact absurd hsw (by simpa using hd)
        · exact ⟨i, a, ha', hsw, rest'⟩

theorem uCond_iff {args : List String} {m : String} {i : Nat} :
    (∃ a, args[i]? = some a ∧ sStartsWith a "-U" = true ∧
      undefineNameAt args i a = some m) ↔ undefinesArgAt args m i := by
  constructor
  · rintro ⟨a, ha, hsw, hun⟩
    by_cases he : a = "-U"
    · subst he
      rw [undefineNameAt, if_pos rfl] at hun
      exact Or.inr ⟨ha, hun⟩
    · rw [undefineNameAt, if_neg he] at hun
      injection hun with hm
      exact Or.inl ⟨a, ha, hsw, he, hm⟩
  · rintro (⟨a, ha, hsw, hne, hm⟩ | ⟨ha, hm⟩)
    · exact ⟨a, ha, hsw, by rw [undefineNameAt, if_neg hne, hm]⟩
    · refine ⟨"-U", ha, by decide, ?_⟩
      rw [undefineNameAt, if_pos rfl]
      exact hm

theorem dCond_iff {args : List String} {m : String} {i : Nat} :
    (∃ a, args[i]? = some a ∧ sStartsWith a "-D" = true ∧
      ∃ d, defineTextAt args i a = some d ∧ (splitDefine d).1 = m) ↔
      definesArgAt args m i := by
  constructor
  · rintro ⟨a, ha, hsw, d, hd, hm⟩
    by_cases he : a = "-D"
    · subst he
      rw [defineTextAt, if_pos rfl] at hd
      exact Or.inr ⟨ha, d, hd, hm⟩
    · rw [defineTextAt, if_neg he] at hd
      injection hd with hdd
      subst hdd
      exact Or.inl ⟨a, ha, hsw, he, hm⟩
  · rintro (⟨a, ha, hsw, hne, hm⟩ | ⟨ha, t, ht, hm⟩)
    · exact ⟨a, ha, hsw, sDrop a 2, by rw [defineTextAt, if_neg hne], hm⟩
    · refine ⟨"-D", ha, by decide, t, ?_, hm⟩
      rw [defineTextAt, if_pos rfl]
      exact ht

theorem undef_startsWith {args : List String} {m : String} {i : Nat}
    (h : undefinesArgAt args m i) :
    ∃ a, args[i]? = some a ∧ sStartsWith a "-U" = true := by
  rcases h with ⟨a, ha, hsw, _, _⟩ | ⟨ha, _⟩
  · exact ⟨a, ha, hsw⟩
  · exact ⟨"-U", ha, by decide⟩

theorem def_startsWith {args : List String} {m : String} {i : Nat}
    (h : definesArgAt args m i) :
    ∃ a, args[i]? = some a ∧ sStartsWith a "-D" = true := by
  rcases h with ⟨a, ha, hsw, _, _⟩ | ⟨ha, _⟩
  · exact ⟨a, ha, hsw⟩
  · exact ⟨"-D", ha, by decide⟩

theorem def_undef_ne {args : List String} {m m' : String} {i : Nat}
    (hd : definesArgAt args m i) (hu : undefinesArgAt args m' i) : False := by
  obtain ⟨a, ha, hswd⟩ := def_startsWith hd
  obtain ⟨b, hb, hswu⟩ := undef_startsWith hu
  rw [ha] at hb
  injection hb with hab
  subst hab
  exact not_dash_d_and_dash_u hswd hswu

/-- Claim C4: a macro `M` is a member of `defines` iff some argument
defining `M` (forms `-DM`, `-DM=value`, `-D M[=value]`) occurs at an
index greater than every argument undefining `M` (forms `-UM`, `-U M`) —
equivalently the rightmost define of `M` is to the right of the rightmost
undefine, or there is no undefine — and `indexed_undefines` maps each
undefined macro name to the rightmost index of its undefine flag.  Stated
under the hypothesis that both computations succeed (no `IndexError` from
a trailing bare `-D`/`-U`). -/
theorem c4_defines_iff (args : List String) (ds : List (String × String))
    (iu : List (String × Nat)) (hds : defines args = some ds)
    (hiu : indexedUndefines args = some iu) (m : String) :
    ((∃ v, (m, v) ∈ ds) ↔
      ∃ i, definesArgAt args m i ∧ ∀ j, undefinesArgAt args m j → j < i) ∧
    (∀ i, dget iu m = some i ↔
      (undefinesArgAt args m i ∧ ∀ j, undefinesArgAt args m j → j ≤ i)) := by
  have hpw : List.Pairwise (fun p q : String × Nat => p.2 < q.2) iu :=
    iuGo_pairwise (enumF_pairwise args 0) hiu
  have hiumem : ∀ (m' : String) (j : Nat), ((m', j) ∈ iu ↔ undefinesArgAt args m' j) := by
    intro m' j
    rw [iuGo_mem hiu]
    constructor
    · rintro ⟨a, ha, hsw, hun⟩
      exact uCond_iff.mp ⟨a, enumF_zero_mem_iff.mp ha, hsw, hun⟩
    · intro h
      obtain ⟨a, ha, hsw, hun⟩ := uCond_iff.mpr h
      exact ⟨a, enumF_zero_mem_iff.mpr ha, hsw, hun⟩
  have hdget : ∀ (j : Nat),
      (dget iu m = some j ↔
        (undefinesArgAt args m j ∧ ∀ j', undefinesArgAt args m j' → j' ≤ j)) := by
    intro j
    rw [dget_some_iff hpw]
    constructor
    · rintro ⟨h1, h2⟩
      exact ⟨(hiumem m j).mp h1, fun j' hj' => h2 j' ((hiumem m j').mpr hj')⟩
    · rintro ⟨h1, h2⟩
      exact ⟨(hiumem m j).mpr h1, fun j' hj' => h2 j' ((hiumem m j').mp hj')⟩
  refine ⟨?_, hdget⟩
  rw [defines] at hds
  simp only [hiu] at hds
  constructor
  · rintro ⟨v, hv⟩
    obtain ⟨i, a, ha, hsw, d, hd, hsd, hnu⟩ := (dGo_mem hds).mp hv
    have hda : definesArgAt args m i :=
      dCond_iff.mp ⟨a, enumF_zero_mem_iff.mp ha, hsw, d, hd, congrArg Prod.fst hsd⟩
    refine ⟨i, hda, ?_⟩
    intro j hj
    cases hg : dget iu m with
    | none => exact absurd ((hiumem m j).mpr hj) (dget_none_iff.mp hg j)
    | some u =>
      have hle : ¬ i < u := fun hlt => hnu ⟨u, hg, hlt⟩
      have hju : j ≤ u := ((hdget u).mp hg).2 j hj
      have hne : j ≠ i := fun he => def_undef_ne hda (he ▸ hj)
      omega
  · rintro ⟨i, hda, hall⟩
    obtain ⟨a, ha, hsw, d, hd, hm1⟩ := dCond_iff.mpr hda
    refine ⟨(splitDefine d).2,
      (dGo_mem hds).mpr ⟨i, a, enumF_zero_mem_iff.mpr ha, hsw, d, hd, ?_, ?_⟩⟩
    · rw [← hm1]
    · rintro ⟨u, hu, hlt⟩
      have hundef := ((hdget u).mp hu).1
      have := hall u hundef
      omega

/-- Witness for `c4_defines_iff` at the spec's own scenario
`CC(["-Dfoo", "-Ufoo", "-Dbar"])`. -/
theorem c4_defines_iff_witness :
    ((∃ v, (("bar", v) : String × String) ∈ [("bar", "1")]) ↔
      ∃ i, definesArgAt ["-Dfoo", "-Ufoo", "-Dbar"] "bar" i ∧
        ∀ j, undefinesArgAt ["-Dfoo", "-Ufoo", "-Dbar"] "bar" j → j < i) ∧
    (∀ i, dget [("foo", 1)] "bar" = some i ↔
      (undefinesArgAt ["-Dfoo", "-Ufoo", "-Dbar"] "bar" i ∧
        ∀ j, undefinesArgAt ["-Dfoo", "-Ufoo", "-Dbar"] "bar" j → j ≤ i)) :=
  c4_defines_iff ["-Dfoo", "-Ufoo", "-Dbar"] [("bar", "1")] [("foo", 1)]
    (by decide) (by decide) "bar"

/-! ## `LangMixin.lang` and `StdMixin.std` (`blight/tool.py`) -/

inductive CompilerKind where
  | CC | CXX | CPP
  deriving DecidableEq

/-- The `-x LANG` table of `LangMixin.lang`. -/
def xLangMap (s : String) : Lang :=
  if s = "c" then .C
  else if s = "c-header" then .C
  else if s = "c++" then .Cxx
  else if s = "c++-header" then .Cxx
  else .Unknown

/-- `LangMixin.lang`: the rightmost `-x…` argument overrides the frontend
default; the split form `-x LANG` reads the next argument without a
bounds check (`none` models that `IndexError`); with no `-x` the default
is `C` for `CC`, `Cxx` for `CXX`, unknown otherwise. -/
def langOf (kind : CompilerKind) (args : List String) : Option Lang :=
  match rindexPref args "-x" with
  | some i =>
    match args[i]? with
    | none => none
    | some a =>
      if a = "-x" then (args[i + 1]?).map xLangMap
      else some (xLangMap (sDrop a 2))
  | none =>
    match kind with
    | .CC => some .C
    | .CXX => some .Cxx
    | .CPP => some .Unknown

/-- The static `-std=` table of `StdMixin.std`. -/
def stdFlagMap : String → Option Std
  | "-std=c89" | "-std=c90" | "-std=iso9899:1990" => some .C89
  | "-std=iso9899:199409" => some .C94
  | "-std=c99" | "-std=c9x" | "-std=iso9899:1999" | "-std=iso9899:199x" => some .C99
  | "-std=c11" | "-std=c1x" | "-std=iso9899:2011" => some .C11
  | "-std=c17" | "-std=c18" | "-std=iso9899:2017" | "-std=iso9899:2018" => some .C17
  | "-std=c2x" => some .C2x
  | "-std=gnu89" | "-std=gnu90" => some .Gnu89
  | "-std=gnu99" | "-std=gnu9x" => some .Gnu99
  | "-std=gnu11" | "-std=gnu1x" => some .Gnu11
  | "-std=gnu17" | "-std=gnu18" => some .Gnu17
  | "-std=gnu2x" => some .Gnu2x
  | "-std=c++98" | "-std=c++03" => some .Cxx03
  | "-std=c++11" | "-std=c++0x" => some .Cxx11
  | "-std=c++14" | "-std=c++1y" => some .Cxx14
  | "-std=c++17" | "-std=c++1z" => some .Cxx17
  | "-std=c++2a" | "-std=c++20" => some .Cxx2a
  | "-std=gnu++98" | "-std=gnu++03" => some .Gnuxx03
  | "-std=gnu++11" | "-std=gnu++0x" => some .Gnuxx11
  | "-std=gnu++14" | "-std=gnu++1y" => some .Gnuxx14
  | "-std=gnu++17" | "-std=gnu++1z" => some .Gnuxx17
  | "-std=gnu++2a" | "-std=gnu++20" => some .Gnuxx2a
  | _ => none

/-- Python `last_std_flag.split("=")[1]`: the text between the first and
second `'='` (or to the end); `none` when there is no `'='` at all (the
source would raise `IndexError`, unreachable behind a `-std=` match). -/
def eqComponent1 (s : String) : Option String :=
  match breakAtEq s.toList with
  | none => none
  | some p =>
    match breakAtEq p.2 with
    | none => some (String.mk p.2)
    | some q => some (String.mk q.1)

/-- The unrecognized-`-std=` fallback of `StdMixin.std`, keyed on the
name's leading text. -/
def stdNameFallback (stdName : String) : Std :=
  if sStartsWith stdName "c++" then .CxxUnknown
  else if sStartsWith stdName "gnu++" then .GnuxxUnknown
  else if sStartsWith stdName "gnu" then .GnuUnknown
  else if sStartsWith stdName "c" || sStartsWith stdName "iso9899" then .CUnknown
  else .Unknown

/-- The classification a single `-std=…` flag receives in the source. -/
def classifyStdFlag (a : String) : Option Std :=
  match stdFlagMap a with
  | some s => some s
  | none => (eqComponent1 a).map stdNameFallback

/-- The `-ansi` special case of `StdMixin.std`. -/
def ansiStd : Lang → Std
  | .C => .C89
  | .Cxx => .Cxx03
  | .Unknown => .Unknown

/-- The no-`-std=` default of `StdMixin.std`. -/
def defaultStd : Lang → Std
  | .C => .GnuUnknown
  | .Cxx => .GnuxxUnknown
  | .Unknown => .Unknown

/-- `StdMixin.std`: the `-ansi` check comes first; otherwise the
rightmost `-std=…` flag (by `rindex_prefix`) is classified; otherwise the
language default applies. -/
def stdOf (kind : CompilerKind) (args : List String) : Option Std :=
  if "-ansi" ∈ args then (langOf kind args).map ansiStd
  else
    match rindexPref args "-std=" with
    | none => (langOf kind args).map defaultStd
    | some i =>
      match args[i]? with
      | none => none
      | some a => classifyStdFlag a

/-- Spec-side reading of "the rightmost `-std=X` wins": classify the
rightmost argument starting with `-std=`, defaulting by language. -/
def rightmostStd (kind : CompilerKind) (args : List String) : Option Std :=
  match args.reverse.find? (fun a => sStartsWith a "-std=") with
  | some a => classifyStdFlag a
  | none => (langOf kind args).map defaultStd

/-- Claim C5 (counterexample): for `CC(["-ansi", "-std=c99"])` the source
returns `C89` — the `-ansi` branch runs first and wins even though a
`-std=` flag is present — so `std` is not `C99` as the claim states. -/
theorem c5_counterexample :
    stdOf CompilerKind.CC ["-ansi", "-std=c99"] = some Std.C89 ∧
      stdOf CompilerKind.CC ["-ansi", "-std=c99"] ≠ some Std.C99 := by
  constructor <;> decide

/-- Claim C5 (amended): `-ansi` takes precedence over every `-std=` flag:
with `-ansi` present, `std` is `C89` for C / `Cxx03` for C++ regardless of
any `-std=` flags; only with `-ansi` absent does the rightmost `-std=X`
determine the result (falling back to the language default when no
`-std=` flag exists). -/
theorem c5_amended (kind : CompilerKind) (args : List String) :
    stdOf kind args =
      (if "-ansi" ∈ args then (langOf kind args).map ansiStd
       else rightmostStd kind args) := by
  rw [stdOf]
  by_cases h : "-ansi" ∈ args
  · rw [if_pos h, if_pos h]
  · rw [if_neg h, if_neg h, rightmostStd]
    cases hr : rindexPref args "-std=" with
    | none => rw [rindexPref_none_find hr]
    | some i =>
      obtain ⟨a, hget, hfind⟩ := rindexPref_some_find hr
      rw [hfind]
      show (match args[i]? with
            | none => none
            | some a => classifyStdFlag a) = classifyStdFlag a
      rw [hget]

/-! ## `Tool.args` / `Tool.canonicalized_args` and `CCForCXX`
(`blight/tool.py`, `blight/actions/cc_for_cxx.py`)

`Tool` keeps two views: `_args` (effective) and `_canonicalized_args`.
The `args` setter overwrites both; reading `canonicalized_args` through
`ResponseFileMixin` expands the *stored canonical view* and stores the
result back.  `CCForCXX.before_run` mutates the effective arguments with
the in-place slice assignment `tool.args[:0] = ["-x", "c++"]`, which
bypasses the `args` setter. -/

structure ToolState where
  args : List String
  canon : List String
  deriving DecidableEq

/-- `Tool.__init__`: `_canonicalized_args = args.copy()`. -/
def mkToolState (args : List String) : ToolState := ⟨args, args⟩

/-- The `args` setter: overwrites both views. -/
def setArgs (_s : ToolState) (new : List String) : ToolState := ⟨new, new⟩

/-- A read of `canonicalized_args` on a response-file tool: the stored
canonical view is expanded, stored back, and returned. -/
def readCanonArgs (fs : FileSystem) (cwd : String) (s : ToolState) :
    ToolState × List String :=
  let e := canonicalizeArgs fs cwd s.canon
  (⟨s.args, e⟩, e)

/-- `CCForCXX.before_run`: reads `tool.std` (a canonical-view read), and
when the standard is a C++ standard prepends `["-x", "c++"]` to
`tool.args` in place — without going through the `args` setter, so the
canonical view is left untouched. -/
def ccForCxxBeforeRun (fs : FileSystem) (cwd : String) (s : ToolState) : ToolState :=
  let r := readCanonArgs fs cwd s
  match stdOf CompilerKind.CC r.2 with
  | some st =>
    if st.isCxxStd then { r.1 with args := ["-x", "c++"] ++ r.1.args } else r.1
  | none => r.1

/-- Claim C8 (code bug): `CCForCXX.before_run` on `CC(["-std=c++17",
"foo.cpp"])` prepends `-x c++` to the effective args, but a subsequent
read of `canonicalized_args` still returns the old
`["-std=c++17", "foo.cpp"]` — the in-place mutation bypasses the `args`
setter, contradicting `Tool`'s documented propagation contract.  A
mutation through the setter (third conjunct) is propagated as the claim
states. -/
theorem c8_codebug :
    (ccForCxxBeforeRun fsEmpty "" (mkToolState ["-std=c++17", "foo.cpp"])).args =
        ["-x", "c++", "-std=c++17", "foo.cpp"] ∧
      (readCanonArgs fsEmpty ""
          (ccForCxxBeforeRun fsEmpty "" (mkToolState ["-std=c++17", "foo.cpp"]))).2 =
        ["-std=c++17", "foo.cpp"] ∧
      (readCanonArgs fsEmpty ""
          (setArgs (mkToolState ["-std=c++17", "foo.cpp"])
            (["-x", "c++"] ++ ["-std=c++17", "foo.cpp"]))).2 =
        ["-x", "c++", "-std=c++17", "foo.cpp"] := by
  refine ⟨?_, ?_, ?_⟩ <;> decide

end Blight
